import Mathlib

/-!
Verification of the tile-based rasterizer core (`src/tile.rs`) of the
rusterize repository.

The packed SIMD float type `f32x8x8` and the `Barycentric` / `Interpolate` /
`Fragment` / `Mapping` capabilities are external to `src/tile.rs` (the spec
treats them as collaborators); they are modelled from the spec's contracts.
Scalar `f32` values are embedded as exact rationals `ℚ`, with the IEEE sign
bit of a value rendered as the predicate "the value is negative", matching
the spec's reading "a set sign bit means negative".  Machine integers
(`u32`, `u64`) are embedded as `ℕ` with explicit `% 2^w` where wrap-around
matters.
-/

namespace Rusterize

/-- Build a natural number from an indexed family of bits: bit `i` of
`bitsToNat f n` is `f i` for `i < n`, and `0` above.  Used to model the
64-bit lane bitmasks extracted from packed floats. -/
def bitsToNat (f : ℕ → Bool) : ℕ → ℕ
  | 0 => 0
  | n + 1 => (if f 0 then 1 else 0) + 2 * bitsToNat (fun i => f (i + 1)) n

theorem bitsToNat_lt (f : ℕ → Bool) : ∀ n, bitsToNat f n < 2 ^ n := by
  intro n
  induction n generalizing f with
  | zero => simp [bitsToNat]
  | succ n ih =>
    have h := ih fun i => f (i + 1)
    by_cases hf : f 0
    · simp [bitsToNat, hf, pow_succ]; omega
    · simp [bitsToNat, hf, pow_succ]; omega

theorem testBit_bitsToNat (f : ℕ → Bool) :
    ∀ n i, (bitsToNat f n).testBit i = (decide (i < n) && f i) := by
  intro n
  induction n generalizing f with
  | zero => intro i; simp [bitsToNat]
  | succ n ih =>
    intro i
    cases i with
    | zero =>
      by_cases hf : f 0 <;> simp [bitsToNat, hf, Nat.testBit_zero, Nat.add_mul_mod_self_left]
    | succ i =>
      have h2 : bitsToNat f (n + 1) / 2 = bitsToNat (fun i => f (i + 1)) n := by
        by_cases hf : f 0
        · simp [bitsToNat, hf]; omega
        · simp [bitsToNat, hf]
      rw [Nat.testBit_add_one, h2, ih]
      simp

/-- Fuel-bounded trailing-zeros count: `tzAux fuel n` halves `n` until an
odd value is reached, consuming fuel.  Structural recursion keeps it
kernel-computable. -/
def tzAux : ℕ → ℕ → ℕ
  | 0, _ => 64
  | fuel + 1, n => if n % 2 = 1 then 0 else tzAux fuel (n / 2) + 1

/-- Number of trailing zero bits, as computed by `u64::trailing_zeros`:
for `n = 0` the Rust call returns 64; otherwise the index of the lowest
set bit (fuel 64 suffices for any `u64` value). -/
def trailingZeros (n : ℕ) : ℕ :=
  if n = 0 then 64 else tzAux 64 n

theorem tzAux_low : ∀ fuel n i, i < tzAux fuel n → i < fuel →
    n.testBit i = false := by
  intro fuel
  induction fuel with
  | zero => intro n i _ h; omega
  | succ fuel ih =>
    intro n i hi hif
    rw [tzAux] at hi
    rcases Nat.mod_two_eq_zero_or_one n with h2 | h2
    · rw [if_neg (by omega)] at hi
      cases i with
      | zero => rw [Nat.testBit_zero]; simp [h2]
      | succ i =>
        rw [Nat.testBit_add_one]
        exact ih (n / 2) i (by omega) (by omega)
    · rw [if_pos h2] at hi
      omega

theorem tzAux_testBit : ∀ fuel n, n ≠ 0 → tzAux fuel n < fuel →
    n.testBit (tzAux fuel n) = true := by
  intro fuel
  induction fuel with
  | zero => intro n _ h; omega
  | succ fuel ih =>
    intro n hn hlt
    rw [tzAux]
    rcases Nat.mod_two_eq_zero_or_one n with h2 | h2
    · rw [tzAux, if_neg (by omega)] at hlt
      rw [if_neg (by omega), Nat.testBit_add_one]
      exact ih (n / 2) (by omega) (by omega)
    · rw [if_pos h2, Nat.testBit_zero]
      simp [h2]

theorem tzAux_lt : ∀ fuel n, n ≠ 0 → n < 2 ^ fuel → tzAux fuel n < fuel := by
  intro fuel
  induction fuel with
  | zero => intro n hn hlt; interval_cases n; omega
  | succ fuel ih =>
    intro n hn hlt
    rw [tzAux]
    rcases Nat.mod_two_eq_zero_or_one n with h2 | h2
    · rw [if_neg (by omega)]
      have : n / 2 < 2 ^ fuel := by
        rw [pow_succ] at hlt
        omega
      have := ih (n / 2) (by omega) this
      omega
    · rw [if_pos h2]
      omega

theorem trailingZeros_lt_of_lt {n : ℕ} (h : n ≠ 0) (hw : n < 2 ^ 64) :
    trailingZeros n < 64 := by
  rw [trailingZeros, if_neg h]
  exact tzAux_lt 64 n h hw

theorem testBit_trailingZeros {n : ℕ} (h : n ≠ 0)
    (hlt : trailingZeros n < 64) : n.testBit (trailingZeros n) = true := by
  rw [trailingZeros, if_neg h] at hlt ⊢
  exact tzAux_testBit 64 n h hlt

theorem testBit_of_lt_trailingZeros {n i : ℕ} (hi : i < trailingZeros n)
    (hi64 : i < 64) : n.testBit i = false := by
  by_cases h : n = 0
  · subst h; exact Nat.zero_testBit i
  · rw [trailingZeros, if_neg h] at hi
    exact tzAux_low 64 n i hi hi64

/-- Bitwise complement within 64 bits, the model of `!x` on `u64`. -/
def compl64 (x : ℕ) : ℕ := (2 ^ 64 - 1) ^^^ x

theorem testBit_compl64 {x i : ℕ} (hx : x < 2 ^ 64) :
    (compl64 x).testBit i = (decide (i < 64) && ! x.testBit i) := by
  rw [compl64, Nat.testBit_xor, Nat.testBit_two_pow_sub_one]
  by_cases h : i < 64
  · simp [h]
  · have hxi : x < 2 ^ i :=
      lt_of_lt_of_le hx (Nat.pow_le_pow_right (by norm_num) (by omega))
    simp [h, Nat.testBit_eq_false_of_lt hxi]

theorem compl64_lt (x : ℕ) (hx : x < 2 ^ 64) : compl64 x < 2 ^ 64 :=
  Nat.xor_lt_two_pow (by norm_num) hx

/-! ## The packed-float dependency

Modelled from the spec: the `f32x8` module (not under `src/`) provides
"fixed-width SIMD-style containers holding 64 packed 32-bit floats arranged
as an 8×8 grid, supporting elementwise add/sub/compare and extraction of a
64-bit sign/zero bitmask". -/

/-- Modelled from the spec: `f32x8x8`, 64 packed float lanes (floats as ℚ). -/
structure f32x8x8 where
  lanes : Fin 64 → ℚ

namespace f32x8x8

/-- Modelled from the spec: `f32x8x8::broadcast`, all 64 lanes set to `c`. -/
def broadcast (c : ℚ) : f32x8x8 := ⟨fun _ => c⟩

instance : Add f32x8x8 := ⟨fun a b => ⟨fun i => a.lanes i + b.lanes i⟩⟩
instance : Sub f32x8x8 := ⟨fun a b => ⟨fun i => a.lanes i - b.lanes i⟩⟩

@[simp] theorem add_lanes (a b : f32x8x8) (i : Fin 64) :
    (a + b).lanes i = a.lanes i + b.lanes i := rfl

@[simp] theorem sub_lanes (a b : f32x8x8) (i : Fin 64) :
    (a - b).lanes i = a.lanes i - b.lanes i := rfl

@[simp] theorem broadcast_lanes (c : ℚ) (i : Fin 64) :
    (broadcast c).lanes i = c := rfl

/-- Modelled from the spec: `x.to_bit_u32x8x8().bitmask()`, the 64-bit sign
bitmask of the packed lanes — bit `i` is set iff lane `i` is negative
("a set sign bit means negative"). -/
def bitmask (x : f32x8x8) : ℕ :=
  bitsToNat (fun i => if h : i < 64 then decide (x.lanes ⟨i, h⟩ < 0) else false) 64

theorem testBit_bitmask (x : f32x8x8) (i : ℕ) (h : i < 64) :
    x.bitmask.testBit i = decide (x.lanes ⟨i, h⟩ < 0) := by
  rw [bitmask, testBit_bitsToNat]
  simp [h]

theorem testBit_bitmask_ge (x : f32x8x8) (i : ℕ) (h : 64 ≤ i) :
    x.bitmask.testBit i = false := by
  rw [bitmask, testBit_bitsToNat]
  simp; omega

theorem bitmask_lt (x : f32x8x8) : x.bitmask < 2 ^ 64 := bitsToNat_lt _ 64

/-- Modelled from the spec: `d.replace(v, mask)`, a masked merge — lanes
whose mask bit is set take the new value, the rest keep the old one. -/
def replace (d : f32x8x8) (v : f32x8x8) (mask : ℕ) : f32x8x8 :=
  ⟨fun i => if mask.testBit i.val then v.lanes i else d.lanes i⟩

end f32x8x8

/-- Modelled from the spec: `f32x8x8_vec3`, a triple of packed grids. -/
structure f32x8x8_vec3 where
  v : Fin 3 → f32x8x8

namespace f32x8x8_vec3

/-- Modelled from the spec: `f32x8x8_vec3::broadcast` of a `Vector3`. -/
def broadcast (z : ℚ × ℚ × ℚ) : f32x8x8_vec3 :=
  ⟨![f32x8x8.broadcast z.1, f32x8x8.broadcast z.2.1, f32x8x8.broadcast z.2.2]⟩

/-- Modelled from the spec: lanewise dot product of two packed triples
("the barycentric-weighted dot product of (w, u, v) with (z0, z1, z2)"). -/
def dot (a b : f32x8x8_vec3) : f32x8x8 :=
  ⟨fun i => (a.v 0).lanes i * (b.v 0).lanes i + (a.v 1).lanes i * (b.v 1).lanes i
    + (a.v 2).lanes i * (b.v 2).lanes i⟩

end f32x8x8_vec3

/-! ## TileMask, TileIndex and the mask iterator (src/tile.rs) -/

/-- `TileMask`: packed barycentric grids `u`, `v` plus the 64-bit coverage
mask (a `u64`, embedded as `ℕ`). -/
structure TileMask where
  u : f32x8x8
  v : f32x8x8
  mask : ℕ

/-- `TileMask::new`: evaluate the barycentric grids at `pos`/`scale`, form
`uv = 1 - (u + v)` and the coverage mask
`!(uv.bitmask | u.bitmask | v.bitmask)`.  The external `Barycentric`
evaluator is passed as the function `bary`. -/
def TileMask.new (pos scale : ℚ × ℚ)
    (bary : (ℚ × ℚ) → (ℚ × ℚ) → f32x8x8 × f32x8x8) : TileMask :=
  let u := (bary pos scale).1
  let v := (bary pos scale).2
  let uv := f32x8x8.broadcast 1 - (u + v)
  { u := u, v := v,
    mask := compl64 (uv.bitmask ||| u.bitmask ||| v.bitmask) }

/-- The interpolated per-lane depth computed inside `mask_with_depth`:
`weights.dot(z)` with `weights = [1 - (u + v), u, v]` and `z` broadcast. -/
def TileMask.interp_depth (tm : TileMask) (z : ℚ × ℚ × ℚ) : f32x8x8 :=
  let zv := f32x8x8_vec3.broadcast z
  let uv := f32x8x8.broadcast 1 - (tm.u + tm.v)
  (f32x8x8_vec3.mk ![uv, tm.u, tm.v]).dot zv

/-- `TileMask::mask_with_depth`: intersect the mask with the sign bitmask
of `depth - d` and with the complement of the sign bitmask of `1 + depth`,
then merge the new depths into `d` at the surviving lanes.  Returns the
updated mask together with the updated depth buffer (the Rust code mutates
both in place). -/
def TileMask.mask_with_depth (tm : TileMask) (z : ℚ × ℚ × ℚ) (d : f32x8x8) :
    TileMask × f32x8x8 :=
  let depth := tm.interp_depth z
  let m1 := tm.mask &&& (depth - d).bitmask
  let m2 := m1 &&& compl64 (f32x8x8.broadcast 1 + depth).bitmask
  ({ tm with mask := m2 }, d.replace depth m2)

/-- `TileIndex`: a `u32` lane identifier (`pub struct TileIndex(pub u32)`). -/
structure TileIndex where
  val : ℕ

/-- `TileIndex::from_xy`: `TileIndex(x*8 + y)` with `u32` arithmetic. -/
def TileIndex.from_xy (x y : ℕ) : TileIndex :=
  ⟨(x * 8 + y) % 2 ^ 32⟩

/-- `TileIndex::x`: the low 3 bits (`self.0 & 0x7`). -/
def TileIndex.x (i : TileIndex) : ℕ := i.val &&& 0x7

/-- `TileIndex::y`: the high bits (`self.0 >> 3`). -/
def TileIndex.y (i : TileIndex) : ℕ := i.val >>> 3

/-- Read a lane of a flat 64-float array at a possibly-unchecked index, as
`get_unchecked` does in `TileMaskIter::next` (out-of-range reads are
unreachable there; the model returns 0). -/
def laneGet (f : Fin 64 → ℚ) (n : ℕ) : ℚ :=
  if h : n < 64 then f ⟨n, h⟩ else 0

/-- `TileMaskIter`: the flat `u`/`v` arrays (the Rust code transmutes the
packed grids to `[f32; 64]`; lane order is preserved) and the remaining
mask. -/
structure TileMaskIter where
  u : Fin 64 → ℚ
  v : Fin 64 → ℚ
  mask : ℕ

/-- `TileMask::iter`. -/
def TileMask.iter (tm : TileMask) : TileMaskIter :=
  { u := tm.u.lanes, v := tm.v.lanes, mask := tm.mask }

/-- `TileMaskIter::next` (`Iterator` impl): if the mask is 0, `None`;
otherwise take `n = mask.trailing_zeros()`, clear bit `n`
(`mask &= !(1 << n)`, `u64` arithmetic) and yield
`(TileIndex(n), [1 - (u + v), u, v])` read from lane `n`.  State passing is
explicit: the updated iterator is returned alongside the item. -/
def TileMaskIter.next (it : TileMaskIter) :
    Option ((TileIndex × (Fin 3 → ℚ)) × TileMaskIter) :=
  if it.mask = 0 then none
  else
    let n := trailingZeros it.mask
    let mask2 := it.mask &&& compl64 ((1 <<< n) % 2 ^ 64)
    let u := laneGet it.u n
    let v := laneGet it.v n
    some ((⟨n⟩, ![1 - (u + v), u, v]), { it with mask := mask2 })

theorem next_mask_lt {m : ℕ} (hm : m ≠ 0) :
    m &&& compl64 ((1 <<< trailingZeros m) % 2 ^ 64) < m := by
  by_cases hn : trailingZeros m < 64
  · have hsh : (1 <<< trailingZeros m) % 2 ^ 64 = 2 ^ trailingZeros m := by
      rw [Nat.shiftLeft_eq, one_mul]
      exact Nat.mod_eq_of_lt (Nat.pow_lt_pow_right (by norm_num) hn)
    rw [hsh]
    refine lt_of_le_of_ne Nat.and_le_left fun he => ?_
    have hb : (m &&& compl64 (2 ^ trailingZeros m)).testBit (trailingZeros m) = false := by
      rw [Nat.testBit_land,
        testBit_compl64 (Nat.pow_lt_pow_right (by norm_num) hn)]
      simp [Nat.testBit_two_pow_self]
    have hc := congrArg (fun k => k.testBit (trailingZeros m)) he
    simp only at hc
    rw [hb, testBit_trailingZeros hm hn] at hc
    exact Bool.false_ne_true hc
  · have hsh : (1 <<< trailingZeros m) % 2 ^ 64 = 0 := by
      rw [Nat.shiftLeft_eq, one_mul]
      exact Nat.mod_eq_zero_of_dvd (pow_dvd_pow 2 (by omega))
    rw [hsh]
    have hz : m &&& compl64 0 = 0 := by
      apply Nat.zero_of_testBit_eq_false
      intro i
      rw [Nat.testBit_land, testBit_compl64 (by norm_num)]
      by_cases hi : i < 64
      · rw [testBit_of_lt_trailingZeros (by omega) (by omega)]
        simp
      · simp [hi]
    rw [hz]
    exact Nat.pos_of_ne_zero hm

theorem next_mask_lt_of_eq_some {it : TileMaskIter} {x : TileIndex × (Fin 3 → ℚ)}
    {it2 : TileMaskIter} (h : it.next = some (x, it2)) : it2.mask < it.mask := by
  by_cases hm : it.mask = 0
  · rw [TileMaskIter.next, if_pos hm] at h
    exact absurd h (by simp)
  · rw [TileMaskIter.next, if_neg hm] at h
    simp only [Option.some.injEq, Prod.mk.injEq] at h
    obtain ⟨-, h2⟩ := h
    rw [← h2]
    exact next_mask_lt hm

/-- The full (finite) sequence of items produced by consuming a
`TileMaskIter` with repeated `next` calls until it returns `None`. -/
def iterList (it : TileMaskIter) : List (TileIndex × (Fin 3 → ℚ)) :=
  match h : it.next with
  | none => []
  | some (x, it2) => x :: iterList it2
termination_by it.mask
decreasing_by exact next_mask_lt_of_eq_some h

/-- The set-bit indices of a 64-bit mask, in ascending order. -/
def setBits (m : ℕ) : List ℕ :=
  (List.range 64).filter (fun i => m.testBit i)

theorem filter_range64_split (n : ℕ) (hn : n < 64) (p : ℕ → Bool)
    (hlow : ∀ i, i < n → p i = false) :
    (List.range 64).filter p = (if p n then [n] else []) ++
      ((List.range (63 - n)).filter (fun j => p (n + (1 + j)))).map
        (fun j => n + (1 + j)) := by
  rw [show (64 : ℕ) = n + (1 + (63 - n)) by omega, List.range_add,
    List.filter_append, List.range_add, List.map_append, List.map_map,
    List.filter_append]
  have h1 : (List.range n).filter p = [] := by
    refine List.filter_eq_nil_iff.mpr fun a ha => ?_
    rw [hlow a (List.mem_range.mp ha)]
    simp
  have h2 : ((List.range 1).map (n + ·)).filter p = (if p n then [n] else []) := by
    have : (List.range 1).map (n + ·) = [n] := by
      rw [show List.range 1 = [0] from rfl]
      simp
    rw [this]
    by_cases hp : p n
    · simp [List.filter, hp]
    · simp [List.filter, hp]
  rw [h1, h2, List.filter_map]
  rfl

theorem setBits_eq_cons {m : ℕ} (hm : m ≠ 0) (hlt : m < 2 ^ 64) :
    setBits m = trailingZeros m ::
      setBits (m &&& compl64 ((1 <<< trailingZeros m) % 2 ^ 64)) := by
  have hn : trailingZeros m < 64 := trailingZeros_lt_of_lt hm hlt
  set n := trailingZeros m with hn_def
  have hsh : (1 <<< n) % 2 ^ 64 = 2 ^ n := by
    rw [Nat.shiftLeft_eq, one_mul]
    exact Nat.mod_eq_of_lt (Nat.pow_lt_pow_right (by norm_num) hn)
  rw [hsh]
  have hq : ∀ i, i < 64 →
      (m &&& compl64 (2 ^ n)).testBit i = (m.testBit i && !(decide (n = i))) := by
    intro i hi
    rw [Nat.testBit_land, testBit_compl64 (Nat.pow_lt_pow_right (by norm_num) hn),
      Nat.testBit_two_pow]
    simp [hi]
  rw [setBits, setBits,
    filter_range64_split n hn _ (fun i hi => testBit_of_lt_trailingZeros hi (by omega)),
    filter_range64_split n hn _ (fun i hi => by
      rw [hq i (by omega), testBit_of_lt_trailingZeros hi (by omega)]; simp)]
  rw [testBit_trailingZeros hm hn]
  have hqn : (m &&& compl64 (2 ^ n)).testBit n = false := by
    rw [hq n hn]
    simp
  rw [hqn]
  have htail : (List.range (63 - n)).filter
        (fun j => (m &&& compl64 (2 ^ n)).testBit (n + (1 + j))) =
      (List.range (63 - n)).filter (fun j => m.testBit (n + (1 + j))) := by
    refine List.filter_congr fun j hj => ?_
    have hj' := List.mem_range.mp hj
    rw [hq (n + (1 + j)) (by omega)]
    simp [show ¬ n = n + (1 + j) by omega]
  rw [htail]
  simp



theorem iterList_eq_map (u v : Fin 64 → ℚ) :
    ∀ m, m < 2 ^ 64 → iterList ⟨u, v, m⟩ = (setBits m).map
      (fun n => (⟨n⟩, ![1 - (laneGet u n + laneGet v n), laneGet u n, laneGet v n])) := by
  intro m
  induction m using Nat.strong_induction_on with
  | _ m ih =>
    intro hlt
    by_cases hm : m = 0
    · subst hm
      have h0 : TileMaskIter.next ⟨u, v, 0⟩ = none := by
        rw [TileMaskIter.next]
        simp
      rw [iterList, h0]
      have : setBits 0 = [] := by decide
      rw [this, List.map_nil]
    · have hnext : TileMaskIter.next ⟨u, v, m⟩ =
          some ((⟨trailingZeros m⟩,
            ![1 - (laneGet u (trailingZeros m) + laneGet v (trailingZeros m)),
              laneGet u (trailingZeros m), laneGet v (trailingZeros m)]),
            ⟨u, v, m &&& compl64 ((1 <<< trailingZeros m) % 2 ^ 64)⟩) := by
        rw [TileMaskIter.next, if_neg hm]
      rw [iterList, hnext]
      dsimp only
      rw [setBits_eq_cons hm hlt, List.map_cons]
      congr 1
      exact ih _ (next_mask_lt hm)
        (lt_of_le_of_lt Nat.and_le_left hlt)

/-! ## Tile, Quad and TileGroup (src/tile.rs) -/

/-- `genmesh::Triangle`, an opaque per-vertex payload triple. -/
structure Triangle (T : Type) where
  a : T
  b : T
  c : T

/-- `Tile<P>`: one packed 8×8 depth buffer plus 64 colors. -/
structure Tile (P : Type) where
  depth : f32x8x8
  color : Fin 64 → P

/-- `Tile::new`: depth all 1.0, color all `p`. -/
def Tile.new {P : Type} (p : P) : Tile P :=
  { depth := f32x8x8.broadcast 1, color := fun _ => p }

/-- `Tile::clear` (`Raster` impl): depth all 1.0, color all `p`. -/
def Tile.clear {P : Type} (_tile : Tile P) (p : P) : Tile P :=
  { depth := f32x8x8.broadcast 1, color := fun _ => p }

/-- One fragment-processing step of the `Tile::raster` loop body:
interpolate the payload at the lane's weights, shade it, and blend the
result into the color buffer at the lane's index (an unchecked 64-element
access in the Rust code; out-of-range indices, unreachable there, leave
the buffer unchanged). -/
def rasterStep {P T O : Type} (t : Triangle T)
    (interp : Triangle T → (Fin 3 → ℚ) → O) (frag : O → P)
    (blend : P → P → P) (c : Fin 64 → P) (iw : TileIndex × (Fin 3 → ℚ)) :
    Fin 64 → P :=
  if h : iw.1.val < 64 then
    Function.update c ⟨iw.1.val, h⟩ (blend (c ⟨iw.1.val, h⟩) (frag (interp t iw.2)))
  else c

/-- `Tile::raster` (`Raster` impl): build the mask; if 0 return
unchanged; otherwise apply the depth test and, for each yielded lane in
iterator order, interpolate, shade, and blend into the color buffer.
The external `Interpolate` and `Fragment` capabilities are passed as the
functions `interp`, `frag` and `blend`. -/
def Tile.raster {P T O : Type} (tile : Tile P) (pos scale : ℚ × ℚ)
    (z : ℚ × ℚ × ℚ) (bary : (ℚ × ℚ) → (ℚ × ℚ) → f32x8x8 × f32x8x8)
    (t : Triangle T) (interp : Triangle T → (Fin 3 → ℚ) → O)
    (frag : O → P) (blend : P → P → P) : Tile P :=
  let m0 := TileMask.new pos scale bary
  if m0.mask = 0 then tile
  else
    let md := m0.mask_with_depth z tile.depth
    { depth := md.2,
      color := (iterList md.1.iter).foldl (rasterStep t interp frag blend) tile.color }

/-- `Tile::write` (`Raster` impl): for each lane `i` in `0..64`, push
`(x + i.x(), y + i.y(), color[i])` to the sink (`u32` adds).  The `Put`
capability is passed as the state-transformer `put`. -/
def Tile.write {P W : Type} (put : W → ℕ → ℕ → P → W) (tile : Tile P)
    (x y : ℕ) (w : W) : W :=
  (List.finRange 64).foldl
    (fun w i =>
      put w ((x + TileIndex.x ⟨i.val⟩) % 2 ^ 32) ((y + TileIndex.y ⟨i.val⟩) % 2 ^ 32)
        (tile.color i)) w

/-- `ApplyMapping for Tile`: elementwise map of the source colors into the
destination color buffer; the depth buffer is not touched. -/
def Tile.map {P T : Type} (dst : Tile P) (src : Tile T) (f : T → P) : Tile P :=
  { depth := dst.depth, color := fun i => f (src.color i) }

/-- `Quad<T>`: a fixed array of four sub-units. -/
structure Quad (T : Type) where
  q : Fin 4 → T

/-- `Quad::new`. -/
def Quad.new {T : Type} (t : T) : Quad T := ⟨fun _ => t⟩

/-- `Quad<Tile<P>>::write`: child size is `Tile::size() = 8`; children are
written at offsets `(0,0)`, `(8,0)`, `(0,8)`, `(8,8)` (`u32` adds). -/
def QuadTile.write {P W : Type} (put : W → ℕ → ℕ → P → W) (qd : Quad (Tile P))
    (x y : ℕ) (w : W) : W :=
  (qd.q 3).write put ((x + 8) % 2 ^ 32) ((y + 8) % 2 ^ 32)
    ((qd.q 2).write put x ((y + 8) % 2 ^ 32)
      ((qd.q 1).write put ((x + 8) % 2 ^ 32) y
        ((qd.q 0).write put x y w)))

/-- `Quad<Quad<Tile<P>>>::write`: child size is `2 * 8 = 16`. -/
def QuadQuad.write {P W : Type} (put : W → ℕ → ℕ → P → W)
    (qd : Quad (Quad (Tile P))) (x y : ℕ) (w : W) : W :=
  QuadTile.write put (qd.q 3) ((x + 16) % 2 ^ 32) ((y + 16) % 2 ^ 32)
    (QuadTile.write put (qd.q 2) x ((y + 16) % 2 ^ 32)
      (QuadTile.write put (qd.q 1) ((x + 16) % 2 ^ 32) y
        (QuadTile.write put (qd.q 0) x y w)))

/-- `Quad<Tile<P>>::clear`: clear all four children. -/
def QuadTile.clear {P : Type} (qd : Quad (Tile P)) (p : P) : Quad (Tile P) :=
  ⟨fun i => (qd.q i).clear p⟩

/-- `Quad<Quad<Tile<P>>>::clear`. -/
def QuadQuad.clear {P : Type} (qd : Quad (Quad (Tile P))) (p : P) :
    Quad (Quad (Tile P)) :=
  ⟨fun i => QuadTile.clear (qd.q i) p⟩

/-- `TileGroup<P>`: the public façade owning a `Quad<Quad<Tile<P>>>`. -/
structure TileGroup (P : Type) where
  tiles : Quad (Quad (Tile P))

/-- `TileGroup::new`. -/
def TileGroup.new {P : Type} (p : P) : TileGroup P :=
  ⟨Quad.new (Quad.new (Tile.new p))⟩

/-- `TileGroup::clear`. -/
def TileGroup.clear {P : Type} (g : TileGroup P) (p : P) : TileGroup P :=
  ⟨QuadQuad.clear g.tiles p⟩

/-- `TileGroup::write`. -/
def TileGroup.write {P W : Type} (put : W → ℕ → ℕ → P → W) (g : TileGroup P)
    (x y : ℕ) (w : W) : W :=
  QuadQuad.write put g.tiles x y w

/-- The trace instantiation of the `Put` capability: the sink is the list
of `put` calls made so far, in order. -/
def listPut {P : Type} (l : List (ℕ × ℕ × P)) (x y : ℕ) (p : P) :
    List (ℕ × ℕ × P) :=
  l ++ [(x, y, p)]

/-- The write-trace property behind the spec's write round-trip: the trace
`l` makes `s * s` `put` calls, with pairwise-distinct coordinates, each of
the form `(x + a, y + b, p)` with `a, b < s`. -/
def Covers {P : Type} (l : List (ℕ × ℕ × P)) (x y s : ℕ) (p : P) : Prop :=
  l.length = s * s ∧
  (l.map fun e => (e.1, e.2.1)).Nodup ∧
  ∀ e ∈ l, ∃ a b, a < s ∧ b < s ∧ e = (x + a, y + b, p)

/-! ## Characterization of the coverage and depth masks -/

theorem new_mask_lt (pos scale : ℚ × ℚ)
    (bary : (ℚ × ℚ) → (ℚ × ℚ) → f32x8x8 × f32x8x8) :
    (TileMask.new pos scale bary).mask < 2 ^ 64 :=
  compl64_lt _ (Nat.or_lt_two_pow
    (Nat.or_lt_two_pow (f32x8x8.bitmask_lt _) (f32x8x8.bitmask_lt _))
    (f32x8x8.bitmask_lt _))

theorem new_mask_testBit (pos scale : ℚ × ℚ)
    (bary : (ℚ × ℚ) → (ℚ × ℚ) → f32x8x8 × f32x8x8) {i : ℕ} (h : i < 64) :
    (TileMask.new pos scale bary).mask.testBit i =
      (decide (0 ≤ 1 - ((bary pos scale).1.lanes ⟨i, h⟩ + (bary pos scale).2.lanes ⟨i, h⟩))
        && decide (0 ≤ (bary pos scale).1.lanes ⟨i, h⟩)
        && decide (0 ≤ (bary pos scale).2.lanes ⟨i, h⟩)) := by
  show (compl64 _).testBit i = _
  rw [testBit_compl64 (Nat.or_lt_two_pow
    (Nat.or_lt_two_pow (f32x8x8.bitmask_lt _) (f32x8x8.bitmask_lt _))
    (f32x8x8.bitmask_lt _)), Nat.testBit_lor, Nat.testBit_lor,
    f32x8x8.testBit_bitmask _ i h, f32x8x8.testBit_bitmask _ i h,
    f32x8x8.testBit_bitmask _ i h]
  simp only [f32x8x8.sub_lanes, f32x8x8.add_lanes, f32x8x8.broadcast_lanes]
  simp [h, not_or, not_lt, sub_nonneg, ← decide_not]

theorem new_mask_testBit_ge (pos scale : ℚ × ℚ)
    (bary : (ℚ × ℚ) → (ℚ × ℚ) → f32x8x8 × f32x8x8) {i : ℕ} (h : 64 ≤ i) :
    (TileMask.new pos scale bary).mask.testBit i = false := by
  show (compl64 _).testBit i = _
  rw [testBit_compl64 (Nat.or_lt_two_pow
    (Nat.or_lt_two_pow (f32x8x8.bitmask_lt _) (f32x8x8.bitmask_lt _))
    (f32x8x8.bitmask_lt _))]
  simp
  omega

theorem interp_depth_lanes (tm : TileMask) (z : ℚ × ℚ × ℚ) (i : Fin 64) :
    (tm.interp_depth z).lanes i =
      (1 - (tm.u.lanes i + tm.v.lanes i)) * z.1 + tm.u.lanes i * z.2.1
        + tm.v.lanes i * z.2.2 := rfl

theorem mask_with_depth_testBit (tm : TileMask) (z : ℚ × ℚ × ℚ) (d : f32x8x8)
    {i : ℕ} (h : i < 64) :
    ((tm.mask_with_depth z d).1.mask.testBit i) =
      (tm.mask.testBit i
        && decide ((tm.interp_depth z).lanes ⟨i, h⟩ - d.lanes ⟨i, h⟩ < 0)
        && !decide (1 + (tm.interp_depth z).lanes ⟨i, h⟩ < 0)) := by
  show ((tm.mask &&& _) &&& compl64 _).testBit i = _
  rw [Nat.testBit_land, Nat.testBit_land,
    testBit_compl64 (f32x8x8.bitmask_lt _),
    f32x8x8.testBit_bitmask _ i h, f32x8x8.testBit_bitmask _ i h]
  simp only [f32x8x8.sub_lanes, f32x8x8.add_lanes, f32x8x8.broadcast_lanes]
  simp [h, Bool.and_assoc]

theorem mask_with_depth_testBit_ge (tm : TileMask) (z : ℚ × ℚ × ℚ)
    (d : f32x8x8) {i : ℕ} (h : 64 ≤ i) :
    ((tm.mask_with_depth z d).1.mask.testBit i) = false := by
  show ((tm.mask &&& _) &&& compl64 _).testBit i = _
  rw [Nat.testBit_land, testBit_compl64 (f32x8x8.bitmask_lt _)]
  simp
  omega

theorem mask_with_depth_mask_le (tm : TileMask) (z : ℚ × ℚ × ℚ)
    (d : f32x8x8) : (tm.mask_with_depth z d).1.mask ≤ tm.mask :=
  le_trans Nat.and_le_left Nat.and_le_left

theorem mask_with_depth_fst_u (tm : TileMask) (z : ℚ × ℚ × ℚ) (d : f32x8x8) :
    (tm.mask_with_depth z d).1.u = tm.u := rfl

theorem mask_with_depth_fst_v (tm : TileMask) (z : ℚ × ℚ × ℚ) (d : f32x8x8) :
    (tm.mask_with_depth z d).1.v = tm.v := rfl

theorem mask_with_depth_snd (tm : TileMask) (z : ℚ × ℚ × ℚ) (d : f32x8x8)
    (i : Fin 64) :
    ((tm.mask_with_depth z d).2).lanes i =
      if (tm.mask_with_depth z d).1.mask.testBit i.val
        then (tm.interp_depth z).lanes i else d.lanes i := rfl

/-! ## Unfolding lemmas for Tile::raster -/

theorem raster_of_mask_zero {P T O : Type} (tile : Tile P) (pos scale : ℚ × ℚ)
    (z : ℚ × ℚ × ℚ) (bary : (ℚ × ℚ) → (ℚ × ℚ) → f32x8x8 × f32x8x8)
    (t : Triangle T) (interp : Triangle T → (Fin 3 → ℚ) → O)
    (frag : O → P) (blend : P → P → P)
    (h : (TileMask.new pos scale bary).mask = 0) :
    tile.raster pos scale z bary t interp frag blend = tile := by
  rw [Tile.raster]
  simp only [h, if_pos]

theorem raster_of_mask_ne_zero {P T O : Type} (tile : Tile P)
    (pos scale : ℚ × ℚ) (z : ℚ × ℚ × ℚ)
    (bary : (ℚ × ℚ) → (ℚ × ℚ) → f32x8x8 × f32x8x8)
    (t : Triangle T) (interp : Triangle T → (Fin 3 → ℚ) → O)
    (frag : O → P) (blend : P → P → P)
    (h : (TileMask.new pos scale bary).mask ≠ 0) :
    tile.raster pos scale z bary t interp frag blend =
      { depth := ((TileMask.new pos scale bary).mask_with_depth z tile.depth).2,
        color := (iterList
            ((TileMask.new pos scale bary).mask_with_depth z tile.depth).1.iter).foldl
          (rasterStep t interp frag blend) tile.color } := by
  rw [Tile.raster]
  simp only [h, if_neg, if_false]

theorem foldl_rasterStep_notin {P T O : Type} (t : Triangle T)
    (interp : Triangle T → (Fin 3 → ℚ) → O) (frag : O → P)
    (blend : P → P → P) (i : Fin 64) :
    ∀ (l : List (TileIndex × (Fin 3 → ℚ))) (c : Fin 64 → P),
    (∀ e ∈ l, e.1.val ≠ i.val) →
    l.foldl (rasterStep t interp frag blend) c i = c i := by
  intro l
  induction l with
  | nil => intro c _; rfl
  | cons a l ih =>
    intro c hmem
    rw [List.foldl_cons, ih _ fun e he => hmem e (List.mem_cons_of_mem a he)]
    rw [rasterStep]
    by_cases h : a.1.val < 64
    · rw [dif_pos h]
      exact Function.update_noteq
        (Fin.ne_of_val_ne fun hv => hmem a (List.mem_cons_self a l) hv.symm) _ _
    · rw [dif_neg h]



theorem foldl_iterList_untouched {P T O : Type} (t : Triangle T)
    (interp : Triangle T → (Fin 3 → ℚ) → O) (frag : O → P)
    (blend : P → P → P) (tm2 : TileMask) (c : Fin 64 → P) (i : Fin 64)
    (hlt : tm2.mask < 2 ^ 64) (hbit : tm2.mask.testBit i.val = false) :
    (iterList tm2.iter).foldl (rasterStep t interp frag blend) c i = c i := by
  apply foldl_rasterStep_notin
  intro e he
  have hl : iterList tm2.iter = (setBits tm2.mask).map
      (fun n => (⟨n⟩, ![1 - (laneGet tm2.u.lanes n + laneGet tm2.v.lanes n),
        laneGet tm2.u.lanes n, laneGet tm2.v.lanes n])) :=
    iterList_eq_map tm2.u.lanes tm2.v.lanes tm2.mask hlt
  rw [hl] at he
  obtain ⟨n, hn, rfl⟩ := List.mem_map.mp he
  intro hni
  have hb := (List.mem_filter.mp hn).2
  rw [show n = i.val from hni, hbit] at hb
  exact Bool.false_ne_true hb

/-! ## The write trace -/

theorem foldl_listPut_append {A P : Type} (f : A → ℕ × ℕ × P) :
    ∀ (l : List A) (w : List (ℕ × ℕ × P)),
    l.foldl (fun w a => w ++ [f a]) w = w ++ l.map f := by
  intro l
  induction l with
  | nil => intro w; simp
  | cons a l ih =>
    intro w
    rw [List.foldl_cons, ih, List.map_cons]
    simp

theorem tile_write_eq {P : Type} (tile : Tile P) (x y : ℕ)
    (w : List (ℕ × ℕ × P)) :
    Tile.write listPut tile x y w = w ++ (List.finRange 64).map
      (fun i => ((x + TileIndex.x ⟨i.val⟩) % 2 ^ 32,
        (y + TileIndex.y ⟨i.val⟩) % 2 ^ 32, tile.color i)) := by
  rw [Tile.write]
  exact foldl_listPut_append _ _ w

theorem covers_coord_bounds {P : Type} {l : List (ℕ × ℕ × P)} {x y s : ℕ}
    {p : P} (h : Covers l x y s p) :
    ∀ e ∈ l, x ≤ e.1 ∧ e.1 < x + s ∧ y ≤ e.2.1 ∧ e.2.1 < y + s := by
  intro e he
  obtain ⟨a, b, ha, hb, rfl⟩ := h.2.2 e he
  dsimp only
  refine ⟨by omega, by omega, by omega, by omega⟩

theorem tile_covers {P : Type} (tile : Tile P) (p : P) (x y : ℕ)
    (hx : x + 8 ≤ 2 ^ 32) (hy : y + 8 ≤ 2 ^ 32) :
    Covers (Tile.write listPut (tile.clear p) x y []) x y 8 p := by
  rw [tile_write_eq, List.nil_append]
  have hxi : ∀ i : Fin 64, TileIndex.x ⟨i.val⟩ = i.val % 8 := by
    intro i
    show i.val &&& 0x7 = i.val % 8
    have h3 := Nat.and_pow_two_sub_one_eq_mod i.val 3
    norm_num at h3
    exact h3
  have hyi : ∀ i : Fin 64, TileIndex.y ⟨i.val⟩ = i.val / 8 := by
    intro i
    show i.val >>> 3 = i.val / 8
    rw [Nat.shiftRight_eq_div_pow]
  have hfix : (fun i : Fin 64 => ((x + TileIndex.x ⟨i.val⟩) % 2 ^ 32,
        (y + TileIndex.y ⟨i.val⟩) % 2 ^ 32, (tile.clear p).color i)) =
      (fun i : Fin 64 => (x + i.val % 8, y + i.val / 8, p)) := by
    funext i
    rw [hxi, hyi]
    have hi := i.isLt
    rw [Nat.mod_eq_of_lt (show x + i.val % 8 < 2 ^ 32 by omega),
      Nat.mod_eq_of_lt (show y + i.val / 8 < 2 ^ 32 by omega)]
    rfl
  rw [hfix]
  refine ⟨by simp, ?_, ?_⟩
  · rw [List.map_map]
    apply List.Nodup.map ?_ (List.nodup_finRange 64)
    intro i j hij
    simp only [Function.comp, Prod.ext_iff] at hij
    obtain ⟨hij1, hij2⟩ := hij
    have hi := i.isLt
    have hj := j.isLt
    apply Fin.ext
    omega
  · intro e he
    obtain ⟨i, -, rfl⟩ := List.mem_map.mp he
    have hi := i.isLt
    exact ⟨i.val % 8, i.val / 8, by omega, by omega, rfl⟩

theorem covers_quad {P : Type} {l1 l2 l3 l4 : List (ℕ × ℕ × P)} {x y s : ℕ}
    {p : P} (h1 : Covers l1 x y s p) (h2 : Covers l2 (x + s) y s p)
    (h3 : Covers l3 x (y + s) s p) (h4 : Covers l4 (x + s) (y + s) s p) :
    Covers (l1 ++ (l2 ++ (l3 ++ l4))) x y (2 * s) p := by
  have hd : ∀ (la lb : List (ℕ × ℕ × P)) (xa ya xb yb : ℕ),
      Covers la xa ya s p → Covers lb xb yb s p →
      (xa + s ≤ xb ∨ xb + s ≤ xa ∨ ya + s ≤ yb ∨ yb + s ≤ ya) →
      (la.map fun e => (e.1, e.2.1)).Disjoint (lb.map fun e => (e.1, e.2.1)) := by
    intro la lb xa ya xb yb ha hb hsep c hca hcb
    obtain ⟨e, he, rfl⟩ := List.mem_map.mp hca
    obtain ⟨e2, he2, hc⟩ := List.mem_map.mp hcb
    have b1 := covers_coord_bounds ha e he
    have b2 := covers_coord_bounds hb e2 he2
    rw [Prod.ext_iff] at hc
    obtain ⟨hc1, hc2⟩ := hc
    simp only at hc1 hc2
    omega
  refine ⟨?_, ?_, ?_⟩
  · simp only [List.length_append, h1.1, h2.1, h3.1, h4.1]
    ring
  · simp only [List.map_append]
    refine List.Nodup.append h1.2.1 ?_ ?_
    · refine List.Nodup.append h2.2.1 ?_ ?_
      · refine List.Nodup.append h3.2.1 h4.2.1 ?_
        exact hd l3 l4 x (y + s) (x + s) (y + s) h3 h4 (by omega)
      · intro c hc2 hc34
        rcases List.mem_append.mp hc34 with hc3 | hc4
        · exact hd l2 l3 (x + s) y x (y + s) h2 h3 (by omega) hc2 hc3
        · exact hd l2 l4 (x + s) y (x + s) (y + s) h2 h4 (by omega) hc2 hc4
    · intro c hc1 hc234
      rcases List.mem_append.mp hc234 with hc2 | hc34
      · exact hd l1 l2 x y (x + s) y h1 h2 (by omega) hc1 hc2
      · rcases List.mem_append.mp hc34 with hc3 | hc4
        · exact hd l1 l3 x y x (y + s) h1 h3 (by omega) hc1 hc3
        · exact hd l1 l4 x y (x + s) (y + s) h1 h4 (by omega) hc1 hc4
  · intro e he
    rcases List.mem_append.mp he with he1 | he234
    · obtain ⟨a, b, ha, hb, rfl⟩ := h1.2.2 e he1
      exact ⟨a, b, by omega, by omega, rfl⟩
    · rcases List.mem_append.mp he234 with he2 | he34
      · obtain ⟨a, b, ha, hb, rfl⟩ := h2.2.2 e he2
        exact ⟨s + a, b, by omega, by omega, by rw [Nat.add_assoc]⟩
      · rcases List.mem_append.mp he34 with he3 | he4
        · obtain ⟨a, b, ha, hb, rfl⟩ := h3.2.2 e he3
          exact ⟨a, s + b, by omega, by omega, by rw [Nat.add_assoc]⟩
        · obtain ⟨a, b, ha, hb, rfl⟩ := h4.2.2 e he4
          exact ⟨s + a, s + b, by omega, by omega, by
            rw [Nat.add_assoc, Nat.add_assoc]⟩

theorem tile_write_shift {P : Type} (tile : Tile P) (x y : ℕ)
    (w : List (ℕ × ℕ × P)) :
    Tile.write listPut tile x y w = w ++ Tile.write listPut tile x y [] := by
  rw [tile_write_eq, tile_write_eq, List.nil_append]

theorem quadTile_covers {P : Type} (qd : Quad (Tile P)) (p : P) (x y : ℕ)
    (hx : x + 16 ≤ 2 ^ 32) (hy : y + 16 ≤ 2 ^ 32) :
    Covers (QuadTile.write listPut (QuadTile.clear qd p) x y []) x y 16 p := by
  have e8x : (x + 8) % 2 ^ 32 = x + 8 := Nat.mod_eq_of_lt (by omega)
  have e8y : (y + 8) % 2 ^ 32 = y + 8 := Nat.mod_eq_of_lt (by omega)
  have hsplit : QuadTile.write listPut (QuadTile.clear qd p) x y [] =
      Tile.write listPut ((qd.q 0).clear p) x y [] ++
      (Tile.write listPut ((qd.q 1).clear p) (x + 8) y [] ++
      (Tile.write listPut ((qd.q 2).clear p) x (y + 8) [] ++
        Tile.write listPut ((qd.q 3).clear p) (x + 8) (y + 8) [])) := by
    rw [QuadTile.write, e8x, e8y]
    rw [show ((QuadTile.clear qd p).q 0) = (qd.q 0).clear p from rfl,
      show ((QuadTile.clear qd p).q 1) = (qd.q 1).clear p from rfl,
      show ((QuadTile.clear qd p).q 2) = (qd.q 2).clear p from rfl,
      show ((QuadTile.clear qd p).q 3) = (qd.q 3).clear p from rfl]
    rw [tile_write_shift ((qd.q 3).clear p),
      tile_write_shift ((qd.q 2).clear p),
      tile_write_shift ((qd.q 1).clear p)]
    simp only [List.append_assoc]
  rw [hsplit]
  have h := covers_quad (tile_covers (qd.q 0) p x y (by omega) (by omega))
    (tile_covers (qd.q 1) p (x + 8) y (by omega) (by omega))
    (tile_covers (qd.q 2) p x (y + 8) (by omega) (by omega))
    (tile_covers (qd.q 3) p (x + 8) (y + 8) (by omega) (by omega))
  norm_num at h
  exact h

theorem quadTile_write_shift {P : Type} (qd : Quad (Tile P)) (x y : ℕ)
    (w : List (ℕ × ℕ × P)) :
    QuadTile.write listPut qd x y w = w ++ QuadTile.write listPut qd x y [] := by
  rw [QuadTile.write, QuadTile.write]
  simp only [tile_write_eq, List.nil_append, List.append_assoc]

theorem quadQuad_covers {P : Type} (qd : Quad (Quad (Tile P))) (p : P)
    (x y : ℕ) (hx : x + 32 ≤ 2 ^ 32) (hy : y + 32 ≤ 2 ^ 32) :
    Covers (QuadQuad.write listPut (QuadQuad.clear qd p) x y []) x y 32 p := by
  have e16x : (x + 16) % 2 ^ 32 = x + 16 := Nat.mod_eq_of_lt (by omega)
  have e16y : (y + 16) % 2 ^ 32 = y + 16 := Nat.mod_eq_of_lt (by omega)
  have hsplit : QuadQuad.write listPut (QuadQuad.clear qd p) x y [] =
      QuadTile.write listPut (QuadTile.clear (qd.q 0) p) x y [] ++
      (QuadTile.write listPut (QuadTile.clear (qd.q 1) p) (x + 16) y [] ++
      (QuadTile.write listPut (QuadTile.clear (qd.q 2) p) x (y + 16) [] ++
        QuadTile.write listPut (QuadTile.clear (qd.q 3) p) (x + 16) (y + 16) [])) := by
    rw [QuadQuad.write, e16x, e16y]
    rw [show ((QuadQuad.clear qd p).q 0) = QuadTile.clear (qd.q 0) p from rfl,
      show ((QuadQuad.clear qd p).q 1) = QuadTile.clear (qd.q 1) p from rfl,
      show ((QuadQuad.clear qd p).q 2) = QuadTile.clear (qd.q 2) p from rfl,
      show ((QuadQuad.clear qd p).q 3) = QuadTile.clear (qd.q 3) p from rfl]
    rw [quadTile_write_shift (QuadTile.clear (qd.q 3) p),
      quadTile_write_shift (QuadTile.clear (qd.q 2) p),
      quadTile_write_shift (QuadTile.clear (qd.q 1) p)]
    simp only [List.append_assoc]
  rw [hsplit]
  have h := covers_quad (quadTile_covers (qd.q 0) p x y (by omega) (by omega))
    (quadTile_covers (qd.q 1) p (x + 16) y (by omega) (by omega))
    (quadTile_covers (qd.q 2) p x (y + 16) (by omega) (by omega))
    (quadTile_covers (qd.q 3) p (x + 16) (y + 16) (by omega) (by omega))
  norm_num at h
  exact h

theorem covers_mem {P : Type} {l : List (ℕ × ℕ × P)} {x y s : ℕ} {p : P}
    (h : Covers l x y s p) : ∀ a b, a < s → b < s → (x + a, y + b, p) ∈ l := by
  classical
  intro a b ha hb
  have hsub : (l.map fun e => (e.1, e.2.1)).toFinset ⊆
      (Finset.range s ×ˢ Finset.range s).image (fun ab => (x + ab.1, y + ab.2)) := by
    intro c hc
    rw [List.mem_toFinset] at hc
    obtain ⟨e, he, rfl⟩ := List.mem_map.mp hc
    obtain ⟨a2, b2, ha2, hb2, rfl⟩ := h.2.2 e he
    exact Finset.mem_image.mpr ⟨(a2, b2), by
      simp [Finset.mem_product, ha2, hb2], rfl⟩
  have hcardS : ((Finset.range s ×ˢ Finset.range s).image
      (fun ab : ℕ × ℕ => (x + ab.1, y + ab.2))).card = s * s := by
    rw [Finset.card_image_of_injective, Finset.card_product,
      Finset.card_range]
    intro u v huv
    rw [Prod.ext_iff] at huv
    obtain ⟨h1, h2⟩ := huv
    simp only at h1 h2
    exact Prod.ext (by omega) (by omega)
  have hcardl : (l.map fun e => (e.1, e.2.1)).toFinset.card = s * s := by
    rw [List.toFinset_card_of_nodup h.2.1, List.length_map, h.1]
  have hEq : (l.map fun e => (e.1, e.2.1)).toFinset =
      (Finset.range s ×ˢ Finset.range s).image (fun ab => (x + ab.1, y + ab.2)) :=
    Finset.eq_of_subset_of_card_le hsub (by rw [hcardS, hcardl])
  have hmemS : (x + a, y + b) ∈ (Finset.range s ×ˢ Finset.range s).image
      (fun ab : ℕ × ℕ => (x + ab.1, y + ab.2)) :=
    Finset.mem_image.mpr ⟨(a, b), by simp [Finset.mem_product, ha, hb], rfl⟩
  rw [← hEq, List.mem_toFinset] at hmemS
  obtain ⟨e, he, hc⟩ := List.mem_map.mp hmemS
  obtain ⟨a2, b2, -, -, rfl⟩ := h.2.2 e he
  dsimp only at hc
  rw [Prod.ext_iff] at hc
  obtain ⟨hc1, hc2⟩ := hc
  simp only at hc1 hc2
  have ha3 : a2 = a := by omega
  have hb3 : b2 = b := by omega
  rw [← ha3, ← hb3]
  exact he

/-! ## The claims -/

/-- C2: In `TileMask::new`, bit `i` of the coverage mask is set if and only
if, for lane `i`, the barycentric weights `u`, `v` and `w = 1 - u - v` are
all nonnegative, the mask being computed as
`NOT (sign_bits(w) OR sign_bits(u) OR sign_bits(v))` with a set sign bit
meaning negative. -/
theorem claim_C2 (pos scale : ℚ × ℚ)
    (bary : (ℚ × ℚ) → (ℚ × ℚ) → f32x8x8 × f32x8x8) (i : Fin 64) :
    (TileMask.new pos scale bary).mask.testBit i.val = true ↔
      (0 ≤ (bary pos scale).1.lanes i ∧ 0 ≤ (bary pos scale).2.lanes i ∧
        0 ≤ 1 - (bary pos scale).1.lanes i - (bary pos scale).2.lanes i) := by
  rw [new_mask_testBit pos scale bary i.isLt]
  simp only [Bool.and_eq_true, decide_eq_true_eq, sub_sub]
  tauto

/-- C3: For `x`, `y` in `[0, 8)`, `TileIndex::from_xy(x, y)` holds
`x*8 + y`; the low-3-bits accessor (`x()`) recovers `y` and the
shift-right-by-3 accessor (`y()`) recovers `x` — each accessor recovers the
constructor argument of the opposite axis. -/
theorem claim_C3 : ∀ x, x < 8 → ∀ y, y < 8 →
    (TileIndex.from_xy x y).val = x * 8 + y ∧
    (TileIndex.from_xy x y).x = y ∧
    (TileIndex.from_xy x y).y = x := by decide

theorem claim_C3_witness :
    (TileIndex.from_xy 3 5).val = 3 * 8 + 5 ∧
    (TileIndex.from_xy 3 5).x = 5 ∧
    (TileIndex.from_xy 3 5).y = 3 :=
  claim_C3 3 (by norm_num) 5 (by norm_num)

/-- C4: For every `TileMask` (with a well-formed `u64` mask), `iter()`
yields exactly one item per set bit of `mask`, lowest bit first, the item
for bit `n` being `(TileIndex(n), [1 - (u_n + v_n), u_n, v_n])`; the
yielded lane indices are strictly increasing (so no lane is yielded
twice), and `next` returns `None` exactly when the remaining mask is 0. -/
theorem claim_C4 (tm : TileMask) (h : tm.mask < 2 ^ 64) :
    (iterList tm.iter = (setBits tm.mask).map
      (fun n => (⟨n⟩, ![1 - (laneGet tm.u.lanes n + laneGet tm.v.lanes n),
        laneGet tm.u.lanes n, laneGet tm.v.lanes n]))) ∧
    ((iterList tm.iter).map (fun e => e.1.val)).Pairwise (· < ·) ∧
    (∀ it : TileMaskIter, it.next = none ↔ it.mask = 0) := by
  have h1 : iterList tm.iter = (setBits tm.mask).map
      (fun n => (⟨n⟩, ![1 - (laneGet tm.u.lanes n + laneGet tm.v.lanes n),
        laneGet tm.u.lanes n, laneGet tm.v.lanes n])) :=
    iterList_eq_map tm.u.lanes tm.v.lanes tm.mask h
  refine ⟨h1, ?_, ?_⟩
  · rw [h1, List.map_map, List.pairwise_map]
    exact (List.pairwise_lt_range 64).filter _
  · intro it
    rw [TileMaskIter.next]
    by_cases m0 : it.mask = 0
    · simp [m0]
    · simp [m0]

theorem claim_C4_witness :
    (TileMask.mk (f32x8x8.broadcast 0) (f32x8x8.broadcast 0) 5).mask < 2 ^ 64 ∧
    ((iterList (TileMask.mk (f32x8x8.broadcast 0) (f32x8x8.broadcast 0) 5).iter =
      (setBits 5).map
        (fun n => (⟨n⟩, ![1 - (laneGet (f32x8x8.broadcast 0).lanes n
            + laneGet (f32x8x8.broadcast 0).lanes n),
          laneGet (f32x8x8.broadcast 0).lanes n,
          laneGet (f32x8x8.broadcast 0).lanes n]))) ∧
    ((iterList (TileMask.mk (f32x8x8.broadcast 0) (f32x8x8.broadcast 0) 5).iter).map
      (fun e => e.1.val)).Pairwise (· < ·) ∧
    (∀ it : TileMaskIter, it.next = none ↔ it.mask = 0)) :=
  ⟨by norm_num, claim_C4 _ (by norm_num)⟩

/-- C5 counterexample: `TileIndex::from_xy` applied to the arbitrary `u32`
arguments `(8, 0)` yields index 64, outside `[0, 64)` — so it is not true
that no public construction can produce an out-of-range `TileIndex`. -/
theorem claim_C5_counterexample : ¬ (TileIndex.from_xy 8 0).val < 64 := by
  decide

/-- C5 (amended): `TileIndex` is not range-guarded by construction (see the
counterexample), but `from_xy` does yield an in-range lane value whenever
both arguments are below 8 — the intended use; and the unchecked 64-element
array accesses in `TileMaskIter::next` are in-bounds for a separate reason:
the accessed index is the trailing-zeros position of a nonzero `u64` mask,
which is always below 64. -/
theorem claim_C5 :
    (∀ x, x < 8 → ∀ y, y < 8 → (TileIndex.from_xy x y).val < 64) ∧
    (∀ (it : TileMaskIter) (x : TileIndex × (Fin 3 → ℚ)) (it2 : TileMaskIter),
      it.mask < 2 ^ 64 → it.next = some (x, it2) → x.1.val < 64) := by
  constructor
  · decide
  · intro it x it2 hlt h
    by_cases hm : it.mask = 0
    · rw [TileMaskIter.next, if_pos hm] at h
      exact absurd h (by simp)
    · rw [TileMaskIter.next, if_neg hm] at h
      simp only [Option.some.injEq, Prod.mk.injEq] at h
      obtain ⟨rfl, -⟩ := h
      exact trailingZeros_lt_of_lt hm hlt

theorem claim_C5_witness :
    (TileIndex.from_xy 3 4).val < 64 ∧
    (TileIndex.mk 0 : TileIndex).val < 64 :=
  ⟨claim_C5.1 3 (by norm_num) 4 (by norm_num),
   claim_C5.2 ⟨fun _ => 0, fun _ => 0, 1⟩
     (⟨trailingZeros 1⟩, ![1 - (laneGet (fun _ => 0) (trailingZeros 1)
         + laneGet (fun _ => 0) (trailingZeros 1)),
       laneGet (fun _ => 0) (trailingZeros 1),
       laneGet (fun _ => 0) (trailingZeros 1)])
     ⟨fun _ => 0, fun _ => 0, 1 &&& compl64 ((1 <<< trailingZeros 1) % 2 ^ 64)⟩
     (by norm_num) rfl⟩

/-- C10: After `tile.map(source, f)`, the destination tile's color at every
lane `i` equals `f (source.color i)`, and the destination's depth buffer is
unchanged. -/
theorem claim_C10 {P T : Type} (dst : Tile P) (src : Tile T) (f : T → P) :
    (∀ i : Fin 64, (dst.map src f).color i = f (src.color i)) ∧
    (dst.map src f).depth = dst.depth :=
  ⟨fun _ => rfl, rfl⟩



/-- C1 (amended): in `TileMask::mask_with_depth`, a covered lane passing
the near-plane test survives the depth comparison if and only if
`depth - depth_buffer` is negative — the new depth must be strictly closer,
so a new depth exactly equal to the stored depth fails — and this is
realized by keeping lanes whose sign bit of `depth - depth_buffer` is set
(not by the complemented non-negative test used for coverage); lanes
failing it are cleared from the mask. -/
theorem claim_C1 (tm : TileMask) (z : ℚ × ℚ × ℚ) (d : f32x8x8) (i : Fin 64)
    (hcov : tm.mask.testBit i.val = true)
    (hnear : ¬ (1 + (tm.interp_depth z).lanes i < 0)) :
    ((tm.mask_with_depth z d).1.mask.testBit i.val = true ↔
      (tm.interp_depth z).lanes i - d.lanes i < 0) := by
  rw [mask_with_depth_testBit tm z d i.isLt, hcov]
  simp [Fin.eta, hnear]

/-- C1 counterexample: for the fully-covered lane 0 with barycentric
weights `u = v = 0`, vertex depths all 1 and stored depth 1, the claimed
condition `depth_buffer - depth ≥ 0` holds (both are 1) and the near-plane
test passes, yet `mask_with_depth` clears the lane: an equal depth does not
survive. -/
theorem claim_C1_counterexample :
    (TileMask.mk (f32x8x8.broadcast 0) (f32x8x8.broadcast 0) 1).mask.testBit
      (0 : Fin 64).val = true ∧
    0 ≤ (f32x8x8.broadcast 1).lanes 0 -
      ((TileMask.mk (f32x8x8.broadcast 0) (f32x8x8.broadcast 0)
        1).interp_depth (1, 1, 1)).lanes 0 ∧
    ¬ (1 + ((TileMask.mk (f32x8x8.broadcast 0) (f32x8x8.broadcast 0)
        1).interp_depth (1, 1, 1)).lanes 0 < 0) ∧
    ((TileMask.mk (f32x8x8.broadcast 0) (f32x8x8.broadcast 0)
        1).mask_with_depth (1, 1, 1)
      (f32x8x8.broadcast 1)).1.mask.testBit (0 : Fin 64).val = false := by
  have hd : ((TileMask.mk (f32x8x8.broadcast 0) (f32x8x8.broadcast 0)
      1).interp_depth (1, 1, 1)).lanes 0 = 1 := by
    rw [interp_depth_lanes]
    show (1 - ((0 : ℚ) + 0)) * 1 + 0 * 1 + 0 * 1 = 1
    norm_num
  refine ⟨by decide, ?_, ?_, ?_⟩
  · rw [hd]
    show 0 ≤ (1 : ℚ) - 1
    norm_num
  · rw [hd]
    norm_num
  · rw [mask_with_depth_testBit _ _ _ (show ((0 : Fin 64) : ℕ) < 64 by norm_num)]
    have hd2 : ((TileMask.mk (f32x8x8.broadcast 0) (f32x8x8.broadcast 0)
        1).interp_depth (1, 1, 1)).lanes ⟨(0 : Fin 64).val, by norm_num⟩ = 1 := hd
    rw [hd2]
    show (_ && decide ((1 : ℚ) - (f32x8x8.broadcast 1).lanes _ < 0) && _) = false
    norm_num

theorem claim_C1_witness :
    (TileMask.mk (f32x8x8.broadcast 0) (f32x8x8.broadcast 0) 1).mask.testBit
      (0 : Fin 64).val = true ∧
    ¬ (1 + ((TileMask.mk (f32x8x8.broadcast 0) (f32x8x8.broadcast 0)
        1).interp_depth (0, 0, 0)).lanes 0 < 0) ∧
    (((TileMask.mk (f32x8x8.broadcast 0) (f32x8x8.broadcast 0)
        1).mask_with_depth (0, 0, 0) (f32x8x8.broadcast 1)).1.mask.testBit
        (0 : Fin 64).val = true ↔
      ((TileMask.mk (f32x8x8.broadcast 0) (f32x8x8.broadcast 0)
        1).interp_depth (0, 0, 0)).lanes 0 - (f32x8x8.broadcast 1).lanes 0 < 0) := by
  have hc : (TileMask.mk (f32x8x8.broadcast 0) (f32x8x8.broadcast 0)
      1).mask.testBit (0 : Fin 64).val = true := by decide
  have hn : ¬ (1 + ((TileMask.mk (f32x8x8.broadcast 0) (f32x8x8.broadcast 0)
      1).interp_depth (0, 0, 0)).lanes 0 < 0) := by
    rw [interp_depth_lanes]
    show ¬ (1 + ((1 - ((0 : ℚ) + 0)) * 0 + 0 * 0 + 0 * 0) < 0)
    norm_num
  exact ⟨hc, hn, claim_C1 _ _ _ 0 hc hn⟩

/-- C8: if the coverage mask computed by `TileMask::new` is 0 (as for a
degenerate or fully-outside triangle), `Tile::raster` returns immediately
and leaves the tile's depth and color buffers completely unchanged, with no
other signal. -/
theorem claim_C8 {P T O : Type} (tile : Tile P) (pos scale : ℚ × ℚ)
    (z : ℚ × ℚ × ℚ) (bary : (ℚ × ℚ) → (ℚ × ℚ) → f32x8x8 × f32x8x8)
    (t : Triangle T) (interp : Triangle T → (Fin 3 → ℚ) → O)
    (frag : O → P) (blend : P → P → P)
    (h : (TileMask.new pos scale bary).mask = 0) :
    tile.raster pos scale z bary t interp frag blend = tile :=
  raster_of_mask_zero tile pos scale z bary t interp frag blend h

theorem claim_C8_witness :
    (TileMask.new (0, 0) (1, 1)
      (fun _ _ => (f32x8x8.broadcast (-1), f32x8x8.broadcast 0))).mask = 0 ∧
    Tile.raster (Tile.new (0 : ℚ)) (0, 0) (1, 1) (0, 0, 0)
      (fun _ _ => (f32x8x8.broadcast (-1), f32x8x8.broadcast 0))
      ⟨(0 : ℚ), 0, 0⟩ (fun _ _ => (0 : ℚ)) (fun o => o) (fun _ n => n) =
      Tile.new (0 : ℚ) := by
  have h0 : (TileMask.new (0, 0) (1, 1)
      (fun _ _ => (f32x8x8.broadcast (-1), f32x8x8.broadcast 0))).mask = 0 := by
    apply Nat.eq_of_testBit_eq
    intro i
    rw [Nat.zero_testBit]
    by_cases hi : i < 64
    · rw [new_mask_testBit _ _ _ hi]
      norm_num
    · rw [new_mask_testBit_ge _ _ _ (by omega)]
  exact ⟨h0, claim_C8 _ _ _ _ _ _ _ _ _ h0⟩

/-- C6: a lane at which the interpolated depth is less than -1 (so
`depth + 1` has a negative sign bit) is cleared from the mask by
`mask_with_depth`, and hence a `Tile::raster` call leaves that lane's
stored depth and stored color unchanged. -/
theorem claim_C6 {P T O : Type} (tile : Tile P) (pos scale : ℚ × ℚ)
    (z : ℚ × ℚ × ℚ) (bary : (ℚ × ℚ) → (ℚ × ℚ) → f32x8x8 × f32x8x8)
    (t : Triangle T) (interp : Triangle T → (Fin 3 → ℚ) → O)
    (frag : O → P) (blend : P → P → P) (i : Fin 64)
    (hd : ((TileMask.new pos scale bary).interp_depth z).lanes i < -1) :
    (tile.raster pos scale z bary t interp frag blend).depth.lanes i =
      tile.depth.lanes i ∧
    (tile.raster pos scale z bary t interp frag blend).color i =
      tile.color i := by
  by_cases h0 : (TileMask.new pos scale bary).mask = 0
  · rw [raster_of_mask_zero _ _ _ _ _ _ _ _ _ h0]
    exact ⟨rfl, rfl⟩
  · rw [raster_of_mask_ne_zero _ _ _ _ _ _ _ _ _ h0]
    have hbit : (((TileMask.new pos scale bary).mask_with_depth z
        tile.depth).1.mask.testBit i.val) = false := by
      rw [mask_with_depth_testBit _ _ _ i.isLt]
      have hnear : decide (1 + ((TileMask.new pos scale
          bary).interp_depth z).lanes ⟨i.val, i.isLt⟩ < 0) = true := by
        rw [decide_eq_true_eq, Fin.eta]
        linarith
      rw [hnear]
      simp
    constructor
    · show (((TileMask.new pos scale bary).mask_with_depth z
        tile.depth).2).lanes i = tile.depth.lanes i
      rw [mask_with_depth_snd, hbit]
      simp
    · show (iterList ((TileMask.new pos scale bary).mask_with_depth z
          tile.depth).1.iter).foldl (rasterStep t interp frag blend)
          tile.color i = tile.color i
      exact foldl_iterList_untouched t interp frag blend _ tile.color i
        (lt_of_le_of_lt (mask_with_depth_mask_le _ _ _) (new_mask_lt _ _ _))
        hbit

theorem claim_C6_witness :
    ((TileMask.new (0, 0) (1, 1)
      (fun _ _ => (f32x8x8.broadcast 0, f32x8x8.broadcast 0))).interp_depth
        (-2, 0, 0)).lanes 0 < -1 ∧
    ((Tile.raster (Tile.new (5 : ℚ)) (0, 0) (1, 1) (-2, 0, 0)
      (fun _ _ => (f32x8x8.broadcast 0, f32x8x8.broadcast 0))
      ⟨(0 : ℚ), 0, 0⟩ (fun _ _ => (0 : ℚ)) (fun o => o)
      (fun _ n => n)).depth.lanes 0 = (Tile.new (5 : ℚ)).depth.lanes 0 ∧
    (Tile.raster (Tile.new (5 : ℚ)) (0, 0) (1, 1) (-2, 0, 0)
      (fun _ _ => (f32x8x8.broadcast 0, f32x8x8.broadcast 0))
      ⟨(0 : ℚ), 0, 0⟩ (fun _ _ => (0 : ℚ)) (fun o => o)
      (fun _ n => n)).color 0 = (Tile.new (5 : ℚ)).color 0) := by
  have hd : ((TileMask.new (0, 0) (1, 1)
      (fun _ _ => (f32x8x8.broadcast 0, f32x8x8.broadcast 0))).interp_depth
        (-2, 0, 0)).lanes 0 < -1 := by
    rw [interp_depth_lanes]
    show (1 - ((0 : ℚ) + 0)) * (-2) + 0 * 0 + 0 * 0 < -1
    norm_num
  exact ⟨hd, claim_C6 _ _ _ _ _ _ _ _ _ 0 hd⟩

/-- C7: depth values lie in [-1, 1] after construction, clear and raster:
new and cleared tiles hold 1.0 in every lane, and a raster call on a tile
whose depth lanes are all within [-1, 1] produces depth lanes within
[-1, 1], each bounded by the lane's previous stored depth; a lane not
surviving the depth-and-near-plane masking keeps its prior depth exactly,
via the masked merge. -/
theorem claim_C7 {P T O : Type} :
    (∀ (p : P) (i : Fin 64), (Tile.new p).depth.lanes i = 1) ∧
    (∀ (tile : Tile P) (p : P) (i : Fin 64),
      (tile.clear p).depth.lanes i = 1) ∧
    (∀ (tile : Tile P) (pos scale : ℚ × ℚ) (z : ℚ × ℚ × ℚ)
      (bary : (ℚ × ℚ) → (ℚ × ℚ) → f32x8x8 × f32x8x8) (t : Triangle T)
      (interp : Triangle T → (Fin 3 → ℚ) → O) (frag : O → P)
      (blend : P → P → P),
      (∀ i : Fin 64, -1 ≤ tile.depth.lanes i ∧ tile.depth.lanes i ≤ 1) →
      ∀ i : Fin 64,
        -1 ≤ (tile.raster pos scale z bary t interp frag blend).depth.lanes i ∧
        (tile.raster pos scale z bary t interp frag blend).depth.lanes i ≤ 1 ∧
        (tile.raster pos scale z bary t interp frag blend).depth.lanes i ≤
          tile.depth.lanes i ∧
        (((TileMask.new pos scale bary).mask_with_depth z
            tile.depth).1.mask.testBit i.val = false →
          (tile.raster pos scale z bary t interp frag blend).depth.lanes i =
            tile.depth.lanes i)) := by
  refine ⟨fun p i => rfl, fun tile p i => rfl, ?_⟩
  intro tile pos scale z bary t interp frag blend hrange i
  by_cases h0 : (TileMask.new pos scale bary).mask = 0
  · rw [raster_of_mask_zero _ _ _ _ _ _ _ _ _ h0]
    exact ⟨(hrange i).1, (hrange i).2, le_refl _, fun _ => rfl⟩
  · rw [raster_of_mask_ne_zero _ _ _ _ _ _ _ _ _ h0]
    show -1 ≤ (((TileMask.new pos scale bary).mask_with_depth z
        tile.depth).2).lanes i ∧ _ ∧ _ ∧ _
    rw [mask_with_depth_snd]
    by_cases hb : ((TileMask.new pos scale bary).mask_with_depth z
        tile.depth).1.mask.testBit i.val = true
    · rw [if_pos hb]
      have hb0 := hb
      rw [mask_with_depth_testBit _ _ _ i.isLt] at hb
      simp only [Fin.eta, Bool.and_eq_true, decide_eq_true_eq,
        Bool.not_eq_true', decide_eq_false_iff_not] at hb
      obtain ⟨⟨-, hlt2⟩, hge⟩ := hb
      have h1 := (hrange i).2
      refine ⟨by linarith, by linarith, by linarith, fun hfalse => ?_⟩
      exact absurd (hb0.symm.trans hfalse) (by simp)
    · rw [if_neg hb]
      exact ⟨(hrange i).1, (hrange i).2, le_refl _, fun _ => rfl⟩

theorem claim_C7_witness :
    (∀ i : Fin 64, -1 ≤ (Tile.new (0 : ℚ)).depth.lanes i ∧
      (Tile.new (0 : ℚ)).depth.lanes i ≤ 1) ∧
    (∀ i : Fin 64,
      -1 ≤ (Tile.raster (Tile.new (0 : ℚ)) (0, 0) (1, 1) (0, 0, 0)
        (fun _ _ => (f32x8x8.broadcast 0, f32x8x8.broadcast 0))
        ⟨(0 : ℚ), 0, 0⟩ (fun _ _ => (0 : ℚ)) (fun o => o)
        (fun _ n => n)).depth.lanes i ∧
      (Tile.raster (Tile.new (0 : ℚ)) (0, 0) (1, 1) (0, 0, 0)
        (fun _ _ => (f32x8x8.broadcast 0, f32x8x8.broadcast 0))
        ⟨(0 : ℚ), 0, 0⟩ (fun _ _ => (0 : ℚ)) (fun o => o)
        (fun _ n => n)).depth.lanes i ≤ 1 ∧
      (Tile.raster (Tile.new (0 : ℚ)) (0, 0) (1, 1) (0, 0, 0)
        (fun _ _ => (f32x8x8.broadcast 0, f32x8x8.broadcast 0))
        ⟨(0 : ℚ), 0, 0⟩ (fun _ _ => (0 : ℚ)) (fun o => o)
        (fun _ n => n)).depth.lanes i ≤ (Tile.new (0 : ℚ)).depth.lanes i ∧
      (((TileMask.new (0, 0) (1, 1)
          (fun _ _ => (f32x8x8.broadcast 0, f32x8x8.broadcast 0))).mask_with_depth
            (0, 0, 0) (Tile.new (0 : ℚ)).depth).1.mask.testBit i.val = false →
        (Tile.raster (Tile.new (0 : ℚ)) (0, 0) (1, 1) (0, 0, 0)
          (fun _ _ => (f32x8x8.broadcast 0, f32x8x8.broadcast 0))
          ⟨(0 : ℚ), 0, 0⟩ (fun _ _ => (0 : ℚ)) (fun o => o)
          (fun _ n => n)).depth.lanes i = (Tile.new (0 : ℚ)).depth.lanes i)) := by
  have hr : ∀ i : Fin 64, -1 ≤ (Tile.new (0 : ℚ)).depth.lanes i ∧
      (Tile.new (0 : ℚ)).depth.lanes i ≤ 1 := by
    intro i
    show -1 ≤ (1 : ℚ) ∧ (1 : ℚ) ≤ 1
    norm_num
  exact ⟨hr, (@claim_C7 ℚ ℚ ℚ).2.2 _ _ _ _ _ _ _ _ _ hr⟩

/-- C9: for a TileGroup whose tiles have all been cleared to a fill pixel
`p`, `write(x, y, sink)` invokes the sink's `put` exactly 1024 times
(32*32), once for each distinct coordinate in `[x, x+32) × [y, y+32)`,
every call carrying the pixel `p`; and at the leaf, each `Tile::write` call
on a cleared tile covers the 64 distinct offsets of its 8×8 block exactly
once. -/
theorem claim_C9 {P : Type} (g : TileGroup P) (p : P) (x y : ℕ)
    (hx : x + 32 ≤ 2 ^ 32) (hy : y + 32 ≤ 2 ^ 32) :
    Covers (TileGroup.write listPut (g.clear p) x y []) x y 32 p ∧
    (∀ a b, a < 32 → b < 32 →
      (x + a, y + b, p) ∈ TileGroup.write listPut (g.clear p) x y []) ∧
    (∀ (tile : Tile P) (x2 y2 : ℕ), x2 + 8 ≤ 2 ^ 32 → y2 + 8 ≤ 2 ^ 32 →
      Covers (Tile.write listPut (tile.clear p) x2 y2 []) x2 y2 8 p) := by
  have hg : Covers (TileGroup.write listPut (g.clear p) x y []) x y 32 p :=
    quadQuad_covers g.tiles p x y hx hy
  exact ⟨hg, covers_mem hg,
    fun tile x2 y2 hx2 hy2 => tile_covers tile p x2 y2 hx2 hy2⟩

theorem claim_C9_witness :
    (0 : ℕ) + 32 ≤ 2 ^ 32 ∧
    (Covers (TileGroup.write listPut ((TileGroup.new (0 : ℚ)).clear 0) 0 0 [])
        0 0 32 0 ∧
      (∀ a b, a < 32 → b < 32 →
        ((0 : ℕ) + a, (0 : ℕ) + b, (0 : ℚ)) ∈
          TileGroup.write listPut ((TileGroup.new (0 : ℚ)).clear 0) 0 0 []) ∧
      (∀ (tile : Tile ℚ) (x2 y2 : ℕ), x2 + 8 ≤ 2 ^ 32 → y2 + 8 ≤ 2 ^ 32 →
        Covers (Tile.write listPut (tile.clear 0) x2 y2 []) x2 y2 8 0)) :=
  ⟨by norm_num,
   claim_C9 (TileGroup.new 0) 0 0 0 (by norm_num) (by norm_num)⟩

end Rusterize
